import Mathlib

/-!
# Verification of the development-digest record pipeline

Shallow embedding of the record normalization and enrichment pipeline:
unit-count text extraction, identifier-based deduplication,
point-in-polygon neighborhood matching with bounding-box pre-check,
district-key sorting, largest-project selection, and the data-freshness
check.  Definitions mirror the corresponding functions of
`generate_digest.py` and `geographic_matcher.py`.
-/

namespace DevDigest

/-! ## Unit Count Extractor (`extract_unit_count_from_text`)

The source runs three regular-expression heuristics over the lower-cased
text and takes the maximum of all numeric candidates.  We embed each
regex as an explicit scanner on `List Char`, reproducing the
left-to-right, non-overlapping semantics of `re.findall` and the
existence semantics of `re.search`. -/

/-- Word character in the sense of the regex `\b` boundary (ASCII model):
letters, digits, underscore. -/
def isWordChar (c : Char) : Bool :=
  c.isAlpha || c.isDigit || c = '_'

/-- Characters matched by the class `[\s-]`: ASCII whitespace or hyphen. -/
def isSpaceHyphen (c : Char) : Bool :=
  c = ' ' || c = '\t' || c = '\n' || c = '\r' || c = '\x0b' || c = '\x0c' || c = '-'

/-- `\b` holds between a word character and this suffix: the suffix is
empty or starts with a non-word character. -/
def atWordBoundary (s : List Char) : Bool :=
  match s with
  | [] => true
  | c :: _ => !isWordChar c

/-- Numeric value of a run of decimal digits (Python `int` of the capture). -/
def natOfDigits (ds : List Char) : Nat :=
  ds.foldl (fun n c => 10 * n + (c.toNat - '0'.toNat)) 0

/-- Attempt to match pattern 1, `\(?(\d+)\)?[\s-]+(unit|dwelling)s?\b`,
at the head of `s`.  Returns the captured number and the matched length. -/
def matchPat1 (s : List Char) : Option (Nat × Nat) :=
  let (op, s1) := match s with
    | '(' :: r => (1, r)
    | _ => (0, s)
  let ds := s1.takeWhile Char.isDigit
  if ds.isEmpty then none else
  let s2 := s1.drop ds.length
  let (cp, s3) := match s2 with
    | ')' :: r => (1, r)
    | _ => (0, s2)
  let ws := s3.takeWhile isSpaceHyphen
  if ws.isEmpty then none else
  let s4 := s3.drop ws.length
  let kw : Option Nat :=
    if ('u' :: 'n' :: 'i' :: 't' :: []).isPrefixOf s4 then some 4
    else if ('d' :: 'w' :: 'e' :: 'l' :: 'l' :: 'i' :: 'n' :: 'g' :: []).isPrefixOf s4 then some 8
    else none
  match kw with
  | none => none
  | some klen =>
    let s5 := s4.drop klen
    let base := op + ds.length + cp + ws.length + klen
    match s5 with
    | 's' :: r => if atWordBoundary r then some (natOfDigits ds, base + 1) else none
    | _ => if atWordBoundary s5 then some (natOfDigits ds, base) else none

/-- Attempt to match pattern 2, `\(?(\d+)\)?[\s-]*(?:family|household)`,
at the head of `s`. -/
def matchPat2 (s : List Char) : Option (Nat × Nat) :=
  let (op, s1) := match s with
    | '(' :: r => (1, r)
    | _ => (0, s)
  let ds := s1.takeWhile Char.isDigit
  if ds.isEmpty then none else
  let s2 := s1.drop ds.length
  let (cp, s3) := match s2 with
    | ')' :: r => (1, r)
    | _ => (0, s2)
  let ws := s3.takeWhile isSpaceHyphen
  let s4 := s3.drop ws.length
  let base := op + ds.length + cp + ws.length
  if ('f' :: 'a' :: 'm' :: 'i' :: 'l' :: 'y' :: []).isPrefixOf s4 then
    some (natOfDigits ds, base + 6)
  else if ('h' :: 'o' :: 'u' :: 's' :: 'e' :: 'h' :: 'o' :: 'l' :: 'd' :: []).isPrefixOf s4 then
    some (natOfDigits ds, base + 9)
  else none

/-- `re.findall` driver: scan left to right; on a match, emit the capture
and resume after the matched text; otherwise advance one character.
`fuel` bounds recursion (the initial fuel `s.length` always suffices
because every step consumes at least one character). -/
def findAllAux (m : List Char → Option (Nat × Nat)) : Nat → List Char → List Nat
  | 0, _ => []
  | _ + 1, [] => []
  | fuel + 1, s =>
    match m s with
    | some (n, k) => n :: findAllAux m fuel (s.drop (max k 1))
    | none => findAllAux m fuel s.tail

/-- All pattern-1 captures, in scan order. -/
def findAllPat1 (s : List Char) : List Nat := findAllAux matchPat1 s.length s

/-- All pattern-2 captures, in scan order. -/
def findAllPat2 (s : List Char) : List Nat := findAllAux matchPat2 s.length s

/-- The fixed word-number lexicon (pattern 3), in source order. -/
def familyWords : List (List Char × Nat) :=
  [ (['s','i','n','g','l','e'], 1), (['o','n','e'], 1)
  , (['t','w','o'], 2), (['d','o','u','b','l','e'], 2)
  , (['t','h','r','e','e'], 3), (['t','r','i','p','l','e'], 3)
  , (['f','o','u','r'], 4), (['q','u','a','d'], 4)
  , (['f','i','v','e'], 5), (['s','i','x'], 6), (['s','e','v','e','n'], 7)
  , (['e','i','g','h','t'], 8), (['n','i','n','e'], 9), (['t','e','n'], 10)
  , (['e','l','e','v','e','n'], 11), (['t','w','e','l','v','e'], 12)
  , (['t','h','i','r','t','e','e','n'], 13), (['f','o','u','r','t','e','e','n'], 14)
  , (['f','i','f','t','e','e','n'], 15), (['s','i','x','t','e','e','n'], 16)
  , (['s','e','v','e','n','t','e','e','n'], 17), (['e','i','g','h','t','e','e','n'], 18)
  , (['n','i','n','e','t','e','e','n'], 19), (['t','w','e','n','t','y'], 20) ]

/-- One of the pattern-3 targets (`family|dwelling|unit`) starts here. -/
def isTargetHere (s : List Char) : Bool :=
  (['f','a','m','i','l','y'].isPrefixOf s) ||
  (['d','w','e','l','l','i','n','g'].isPrefixOf s) ||
  (['u','n','i','t'].isPrefixOf s)

/-- `.*?(family|dwelling|unit)` from this position: a target occurrence is
reachable without crossing a newline (regex `.` does not match `\n`). -/
def targetAhead : List Char → Bool
  | [] => false
  | c :: r => isTargetHere (c :: r) || (c ≠ '\n' && targetAhead r)

/-- `\b` before a word: the previous character (if any) is not a word
character. -/
def prevBoundaryOk (prev : Option Char) : Bool :=
  match prev with
  | none => true
  | some c => !isWordChar c

/-- `re.search(\b<word>\b.*?(family|dwelling|unit), s)` existence check,
scanning with the previous character tracked for the leading boundary. -/
def wordThenTarget (w : List Char) : Option Char → List Char → Bool
  | _, [] => false
  | prev, c :: r =>
    (prevBoundaryOk prev && w.isPrefixOf (c :: r) &&
      atWordBoundary ((c :: r).drop w.length) && targetAhead ((c :: r).drop w.length))
    || wordThenTarget w (some c) r

/-- Pattern-3 candidates: each lexicon entry whose word occurs (with word
boundaries) followed later by `family`, `dwelling` or `unit`. -/
def pat3Matches (s : List Char) : List Nat :=
  familyWords.filterMap (fun wc => if wordThenTarget wc.1 none s then some wc.2 else none)

/-- All candidate counts collected by the three heuristics over the
lower-cased text, in source order (pattern 1, then 2, then 3). -/
def extractCandidates (s : List Char) : List Nat :=
  findAllPat1 s ++ findAllPat2 s ++ pat3Matches s

/-- Maximum of a candidate list (Python `max` of a non-empty list). -/
def listMax : List Nat → Nat
  | [] => 0
  | x :: xs => max x (listMax xs)

/-- Lower-case a text (ASCII model of `str.lower`). -/
def lowerChars (t : String) : List Char := t.data.map Char.toLower

/-- `extract_unit_count_from_text`: `none` models Python `None` both for
an absent/empty input and for "no candidate found". -/
def extract_unit_count_from_text (text : Option String) : Option Nat :=
  match text with
  | none => none
  | some t =>
    if t = "" then none
    else
      let cands := extractCandidates (lowerChars t)
      if cands.isEmpty then none else some (listMax cands)

example : extract_unit_count_from_text (some "single family home") = some 1 := by decide
example : extract_unit_count_from_text (some "requesting a 12-unit multi-family dwelling") = some 12 := by decide
example : extract_unit_count_from_text (some "") = none := by rfl
example : extract_unit_count_from_text none = none := by rfl
example : extract_unit_count_from_text (some "(8) dwelling units") = some 8 := by decide
example : extract_unit_count_from_text (some "eight (8) family") = some 8 := by decide
example : extract_unit_count_from_text (some "NINETEEN UNIT building") = some 19 := by decide

/-! ## Record Deduplicator (`get_permits` lines 181–197, `get_appeals` lines 269–284)

The source iterates records in input order over a Python `dict` keyed by
the identifier (`permitnumber`/`appealnumber`), replacing the stored
record only when the new record's timestamp string-compares strictly
greater; records with a falsy identifier (missing or empty) are skipped.
`dict` preserves first-insertion order, and replacement keeps the
original position; the output is `list(seen.values())`.  We model the
dict as an association list with position-preserving update. -/

/-- A raw record for deduplication: identifier field, timestamp field,
and the rest of the record (opaque payload standing for the remaining
source fields). -/
structure RawRec where
  rid : Option String
  rts : Option String
  payload : String
  deriving DecidableEq, Repr

/-- The dedup key actually used: `record.get(idfield)` followed by the
Python truthiness test `if permit_num:`, so a missing or empty
identifier yields no key. -/
def idOf (r : RawRec) : Option String :=
  match r.rid with
  | none => none
  | some s => if s = "" then none else some s

/-- The timestamp string used in comparisons, as its character sequence:
`record.get(tsfield, '')`.  Python's `>` on strings is lexicographic by
code point, which is exactly the lexicographic order on `List Char`. -/
def tsOf (r : RawRec) : List Char := (r.rts.getD "").data

/-- Association-list lookup (`permit_num in seen_permits` / indexing). -/
def lookupKey : List (String × RawRec) → String → Option RawRec
  | [], _ => none
  | (k, v) :: rest, key => if k = key then some v else lookupKey rest key

/-- Position-preserving update of an existing key, appending when absent
(Python `dict` assignment semantics). -/
def updateKey : List (String × RawRec) → String → RawRec → List (String × RawRec)
  | [], key, r => [(key, r)]
  | (k, v) :: rest, key, r =>
    if k = key then (key, r) :: rest else (k, v) :: updateKey rest key r

/-- One step of the dedup loop body. -/
def dedupStep (seen : List (String × RawRec)) (r : RawRec) : List (String × RawRec) :=
  match idOf r with
  | none => seen
  | some key =>
    match lookupKey seen key with
    | none => seen ++ [(key, r)]
    | some v => if tsOf v < tsOf r then updateKey seen key r else seen

/-- The deduplicator: fold the loop body over the input, then take the
dict's values in order. -/
def dedupRecords (l : List RawRec) : List RawRec :=
  (l.foldl dedupStep []).map Prod.snd

/-- First-occurrence sequence of a list of keys: the order in which
distinct keys first appear. -/
def firstOccs (ks : List String) : List String :=
  ks.foldl (fun acc k => if k ∈ acc then acc else acc ++ [k]) []

/-- The fold invariant tying the dict contents to the processed prefix:
keys are distinct, each stored record carries its key as identifier,
each stored record occurs in the prefix with all earlier same-key
records strictly older and all later same-key records no newer, and
every identified record of the prefix has its key present. -/
def DedupInv (processed : List RawRec) (seen : List (String × RawRec)) : Prop :=
  (seen.map Prod.fst).Nodup ∧
  (∀ kv ∈ seen, idOf kv.2 = some kv.1) ∧
  (∀ kv ∈ seen, ∃ pre post, processed = pre ++ kv.2 :: post ∧
      (∀ q ∈ pre, idOf q = some kv.1 → tsOf q < tsOf kv.2) ∧
      (∀ q ∈ post, idOf q = some kv.1 → tsOf q ≤ tsOf kv.2)) ∧
  (∀ q ∈ processed, ∀ k, idOf q = some k → k ∈ seen.map Prod.fst)

lemma lookupKey_eq_none_iff (seen : List (String × RawRec)) (key : String) :
    lookupKey seen key = none ↔ key ∉ seen.map Prod.fst := by
  induction seen with
  | nil => simp [lookupKey]
  | cons kv rest ih =>
    obtain ⟨k, v⟩ := kv
    by_cases h : k = key
    · subst h; simp [lookupKey]
    · simp only [lookupKey, if_neg h, List.map_cons, List.mem_cons, ih]
      constructor
      · intro h1 h2
        rcases h2 with h2 | h2
        · exact h h2.symm
        · exact h1 h2
      · intro h1 h2
        exact h1 (Or.inr h2)

lemma lookupKey_mem (seen : List (String × RawRec)) (key : String) (v : RawRec)
    (h : lookupKey seen key = some v) : (key, v) ∈ seen := by
  induction seen with
  | nil => simp [lookupKey] at h
  | cons kv rest ih =>
    obtain ⟨k, w⟩ := kv
    by_cases hk : k = key
    · subst hk
      have hwv : w = v := by simpa [lookupKey] using h
      subst hwv
      exact List.mem_cons_self _ _
    · simp only [lookupKey, if_neg hk] at h
      exact List.mem_cons_of_mem _ (ih h)

lemma lookupKey_of_mem_nodup (seen : List (String × RawRec)) (key : String) (v : RawRec)
    (hnd : (seen.map Prod.fst).Nodup) (hmem : (key, v) ∈ seen) :
    lookupKey seen key = some v := by
  induction seen with
  | nil => simp at hmem
  | cons kv rest ih =>
    obtain ⟨k, w⟩ := kv
    rw [List.map_cons, List.nodup_cons] at hnd
    rcases List.mem_cons.1 hmem with h | h
    · injection h with hk hv
      subst hk
      subst hv
      simp [lookupKey]
    · by_cases hk : k = key
      · subst hk
        exact absurd (List.mem_map_of_mem Prod.fst h) hnd.1
      · simp only [lookupKey, if_neg hk]
        exact ih hnd.2 h

lemma updateKey_map_fst (seen : List (String × RawRec)) (key : String) (r : RawRec)
    (h : key ∈ seen.map Prod.fst) :
    (updateKey seen key r).map Prod.fst = seen.map Prod.fst := by
  induction seen with
  | nil => simp at h
  | cons kv rest ih =>
    obtain ⟨k, v⟩ := kv
    by_cases hk : k = key
    · subst hk; simp [updateKey]
    · rw [List.map_cons, List.mem_cons] at h
      rcases h with h | h
      · exact absurd h.symm hk
      · simp only [updateKey, if_neg hk, List.map_cons, ih h]

lemma updateKey_mem (seen : List (String × RawRec)) (key : String) (r : RawRec)
    (hnd : (seen.map Prod.fst).Nodup)
    (kv : String × RawRec) (hmem : kv ∈ updateKey seen key r) :
    kv = (key, r) ∨ (kv ∈ seen ∧ kv.1 ≠ key) := by
  induction seen with
  | nil =>
    simp only [updateKey, List.mem_singleton] at hmem
    exact Or.inl hmem
  | cons hd rest ih =>
    obtain ⟨k, v⟩ := hd
    rw [List.map_cons, List.nodup_cons] at hnd
    by_cases hk : k = key
    · have hmem' : kv = (key, r) ∨ kv ∈ rest := by
        simpa [updateKey, hk] using hmem
      rcases hmem' with h | h
      · exact Or.inl h
      · right
        refine ⟨List.mem_cons_of_mem _ h, fun hkv => ?_⟩
        have h1 : kv.1 ∈ List.map Prod.fst rest := List.mem_map_of_mem Prod.fst h
        rw [hkv, ← hk] at h1
        exact hnd.1 h1
    · simp only [updateKey, if_neg hk, List.mem_cons] at hmem
      rcases hmem with h | h
      · subst h; exact Or.inr ⟨List.mem_cons_self _ _, hk⟩
      · rcases ih hnd.2 h with h' | h'
        · exact Or.inl h'
        · exact Or.inr ⟨List.mem_cons_of_mem _ h'.1, h'.2⟩

/-- Extending the processed prefix with a record that either has a
different key or a timestamp no newer preserves a stored record's
positional property. -/
lemma pos_extend (processed : List RawRec) (r : RawRec) (kv : String × RawRec)
    (hne : idOf r = some kv.1 → tsOf r ≤ tsOf kv.2)
    (h : ∃ pre post, processed = pre ++ kv.2 :: post ∧
        (∀ q ∈ pre, idOf q = some kv.1 → tsOf q < tsOf kv.2) ∧
        (∀ q ∈ post, idOf q = some kv.1 → tsOf q ≤ tsOf kv.2)) :
    ∃ pre post, processed ++ [r] = pre ++ kv.2 :: post ∧
        (∀ q ∈ pre, idOf q = some kv.1 → tsOf q < tsOf kv.2) ∧
        (∀ q ∈ post, idOf q = some kv.1 → tsOf q ≤ tsOf kv.2) := by
  obtain ⟨pre, post, heq, hpre, hpost⟩ := h
  refine ⟨pre, post ++ [r], by simp [heq], hpre, ?_⟩
  intro q hq hqid
  rcases List.mem_append.1 hq with h' | h'
  · exact hpost q h' hqid
  · rw [List.mem_singleton] at h'
    subst h'
    exact hne hqid

lemma dedupStep_preserves (processed : List RawRec) (seen : List (String × RawRec))
    (r : RawRec) (h : DedupInv processed seen) :
    DedupInv (processed ++ [r]) (dedupStep seen r) := by
  obtain ⟨hnd, hid, hpos, hcov⟩ := h
  cases hidr : idOf r with
  | none =>
    have hstep : dedupStep seen r = seen := by simp [dedupStep, hidr]
    rw [hstep]
    refine ⟨hnd, hid, ?_, ?_⟩
    · intro kv hkv
      exact pos_extend processed r kv (fun hq => absurd hq (by simp [hidr])) (hpos kv hkv)
    · intro q hq k hk
      rcases List.mem_append.1 hq with h' | h'
      · exact hcov q h' k hk
      · rw [List.mem_singleton] at h'
        subst h'
        rw [hidr] at hk
        exact absurd hk (by simp)
  | some key =>
    cases hlk : lookupKey seen key with
    | none =>
      have hkeyout : key ∉ seen.map Prod.fst := (lookupKey_eq_none_iff seen key).1 hlk
      have hstep : dedupStep seen r = seen ++ [(key, r)] := by
        simp [dedupStep, hidr, hlk]
      rw [hstep]
      refine ⟨?_, ?_, ?_, ?_⟩
      · rw [List.map_append]
        exact List.Nodup.append hnd (by simp) (by
          intro a ha hb
          rw [List.map_singleton, List.mem_singleton] at hb
          subst hb
          exact hkeyout ha)
      · intro kv hkv
        rcases List.mem_append.1 hkv with h' | h'
        · exact hid kv h'
        · rw [List.mem_singleton] at h'
          subst h'
          exact hidr
      · intro kv hkv
        rcases List.mem_append.1 hkv with h' | h'
        · refine pos_extend processed r kv (fun hq => ?_) (hpos kv h')
          rw [hidr] at hq
          have hk1 : key = kv.1 := Option.some.inj hq
          exact absurd (hk1 ▸ List.mem_map_of_mem Prod.fst h') hkeyout
        · rw [List.mem_singleton] at h'
          subst h'
          refine ⟨processed, [], by simp, fun q hq hqid => ?_, by simp⟩
          exact absurd (hcov q hq key hqid) hkeyout
      · intro q hq k hk
        rw [List.map_append, List.map_singleton, List.mem_append, List.mem_singleton]
        rcases List.mem_append.1 hq with h' | h'
        · exact Or.inl (hcov q h' k hk)
        · rw [List.mem_singleton] at h'
          subst h'
          rw [hidr] at hk
          exact Or.inr (Option.some.inj hk).symm
    | some v =>
      have hvmem : (key, v) ∈ seen := lookupKey_mem seen key v hlk
      have hkeymem : key ∈ seen.map Prod.fst := List.mem_map_of_mem Prod.fst hvmem
      by_cases hts : tsOf v < tsOf r
      · have hstep : dedupStep seen r = updateKey seen key r := by
          simp [dedupStep, hidr, hlk, hts]
        rw [hstep]
        refine ⟨by rw [updateKey_map_fst seen key r hkeymem]; exact hnd, ?_, ?_, ?_⟩
        · intro kv hkv
          rcases updateKey_mem seen key r hnd kv hkv with h' | h'
          · subst h'; exact hidr
          · exact hid kv h'.1
        · intro kv hkv
          rcases updateKey_mem seen key r hnd kv hkv with h' | h'
          · subst h'
            refine ⟨processed, [], by simp, fun q hq hqid => ?_, by simp⟩
            obtain ⟨pre, post, heq, hpre, hpost⟩ := hpos (key, v) hvmem
            have hsplit : q ∈ pre ∨ q = v ∨ q ∈ post := by
              rw [heq] at hq
              rcases List.mem_append.1 hq with h1 | h1
              · exact Or.inl h1
              · rcases List.mem_cons.1 h1 with h2 | h2
                · exact Or.inr (Or.inl h2)
                · exact Or.inr (Or.inr h2)
            rcases hsplit with h1 | h1 | h1
            · exact lt_trans (hpre q h1 hqid) hts
            · subst h1; exact hts
            · exact lt_of_le_of_lt (hpost q h1 hqid) hts
          · refine pos_extend processed r kv (fun hq => ?_) (hpos kv h'.1)
            rw [hidr] at hq
            exact absurd (Option.some.inj hq).symm h'.2
        · intro q hq k hk
          rw [updateKey_map_fst seen key r hkeymem]
          rcases List.mem_append.1 hq with h' | h'
          · exact hcov q h' k hk
          · rw [List.mem_singleton] at h'
            subst h'
            rw [hidr] at hk
            have hkk : k = key := (Option.some.inj hk).symm
            exact hkk ▸ hkeymem
      · have hstep : dedupStep seen r = seen := by
          simp [dedupStep, hidr, hlk, hts]
        rw [hstep]
        refine ⟨hnd, hid, ?_, ?_⟩
        · intro kv hkv
          refine pos_extend processed r kv (fun hq => ?_) (hpos kv hkv)
          rw [hidr] at hq
          have hk1 : key = kv.1 := Option.some.inj hq
          have hv1 : kv.2 = v := by
            have h1 : lookupKey seen kv.1 = some kv.2 := by
              have : (kv.1, kv.2) ∈ seen := by simpa using hkv
              exact lookupKey_of_mem_nodup seen kv.1 kv.2 hnd this
            rw [← hk1] at h1
            rw [hlk] at h1
            exact Option.some.inj h1.symm
          rw [hv1]
          exact not_lt.1 hts
        · intro q hq k hk
          rcases List.mem_append.1 hq with h' | h'
          · exact hcov q h' k hk
          · rw [List.mem_singleton] at h'
            subst h'
            rw [hidr] at hk
            have hkk : k = key := (Option.some.inj hk).symm
            exact hkk ▸ hkeymem

lemma dedup_fold_inv (l : List RawRec) :
    ∀ processed seen, DedupInv processed seen →
      DedupInv (processed ++ l) (l.foldl dedupStep seen) := by
  induction l with
  | nil => intro processed seen h; simpa using h
  | cons r rest ih =>
    intro processed seen h
    have h2 := ih (processed ++ [r]) (dedupStep seen r) (dedupStep_preserves processed seen r h)
    simpa using h2

lemma dedup_inv (l : List RawRec) : DedupInv l (l.foldl dedupStep []) := by
  have h0 : DedupInv [] ([] : List (String × RawRec)) :=
    ⟨by simp, by simp, by simp, by simp⟩
  simpa using dedup_fold_inv l [] [] h0

/-- The dict's key sequence after the fold is the first-occurrence
sequence of the identifiers, regardless of replacements. -/
lemma dedup_fold_map_fst (l : List RawRec) :
    ∀ seen : List (String × RawRec),
      (l.foldl dedupStep seen).map Prod.fst =
        (l.filterMap idOf).foldl (fun acc k => if k ∈ acc then acc else acc ++ [k])
          (seen.map Prod.fst) := by
  induction l with
  | nil => intro seen; simp
  | cons r rest ih =>
    intro seen
    cases hidr : idOf r with
    | none =>
      have hstep : dedupStep seen r = seen := by simp [dedupStep, hidr]
      simp only [List.foldl_cons, hstep, List.filterMap_cons, hidr]
      exact ih seen
    | some key =>
      cases hlk : lookupKey seen key with
      | none =>
        have hkeyout : key ∉ seen.map Prod.fst := (lookupKey_eq_none_iff seen key).1 hlk
        have hstep : dedupStep seen r = seen ++ [(key, r)] := by
          simp [dedupStep, hidr, hlk]
        simp only [List.foldl_cons, hstep, List.filterMap_cons, hidr]
        rw [ih (seen ++ [(key, r)])]
        simp [hkeyout]
      | some v =>
        have hkeymem : key ∈ seen.map Prod.fst :=
          List.mem_map_of_mem Prod.fst (lookupKey_mem seen key v hlk)
        by_cases hts : tsOf v < tsOf r
        · have hstep : dedupStep seen r = updateKey seen key r := by
            simp [dedupStep, hidr, hlk, hts]
          simp only [List.foldl_cons, hstep, List.filterMap_cons, hidr]
          rw [ih (updateKey seen key r), updateKey_map_fst seen key r hkeymem]
          simp [hkeymem]
        · have hstep : dedupStep seen r = seen := by
            simp [dedupStep, hidr, hlk, hts]
          simp only [List.foldl_cons, hstep, List.filterMap_cons, hidr]
          rw [ih seen]
          simp [hkeymem]

/-! ## Geographic Matcher (`geographic_matcher.py`, `match_neighborhood`)

A loaded polygon is modelled by its name, its exact containment
predicate (the shapely prepared-geometry test, abstract here), and its
precomputed bounding box.  Coordinates are rationals; the algorithm
only compares and never computes with them. -/

/-- A loaded neighborhood shape: name, exact containment test, and the
precomputed bounding box `(minx, miny, maxx, maxy)`. -/
structure NbShape where
  name : String
  containsPt : ℚ × ℚ → Bool
  bounds : ℚ × ℚ × ℚ × ℚ

/-- The bounding-box pre-check of the matching loop:
`minx <= lon <= maxx and miny <= lat <= maxy`. -/
def inBBox (b : ℚ × ℚ × ℚ × ℚ) (lon lat : ℚ) : Bool :=
  decide (b.1 ≤ lon) && decide (lon ≤ b.2.2.1) && decide (b.2.1 ≤ lat) && decide (lat ≤ b.2.2.2)

/-- The matching loop with the cheap bounding-box rejection, as in the
source: skip a shape whose box excludes the point, otherwise run the
exact containment test; return the first name that passes. -/
def matchLoop : List NbShape → ℚ → ℚ → Option String
  | [], _, _ => none
  | nb :: rest, lon, lat =>
    if inBBox nb.bounds lon lat then
      if nb.containsPt (lon, lat) then some nb.name else matchLoop rest lon lat
    else matchLoop rest lon lat

/-- `match_neighborhood`: falsy (absent or zero) coordinates short-circuit
to `None`; otherwise scan the loaded shapes in order. -/
def match_neighborhood (shapes : List NbShape) (lon lat : Option ℚ) : Option String :=
  match lon, lat with
  | some a, some b =>
    if a = 0 ∨ b = 0 then none else matchLoop shapes a b
  | _, _ => none

/-- Modelled from the spec: the naive scan that runs the exact
containment test on every polygon in load order with no bounding-box
pre-check and returns the first containing polygon's name. -/
def naiveLoop : List NbShape → ℚ → ℚ → Option String
  | [], _, _ => none
  | nb :: rest, lon, lat =>
    if nb.containsPt (lon, lat) then some nb.name else naiveLoop rest lon lat

/-- Modelled from the spec: naive matcher with the same falsy-coordinate
guard. -/
def naive_match_neighborhood (shapes : List NbShape) (lon lat : Option ℚ) : Option String :=
  match lon, lat with
  | some a, some b =>
    if a = 0 ∨ b = 0 then none else naiveLoop shapes a b
  | _, _ => none

/-- A shape's precomputed box really bounds its geometry: every contained
point lies inside the box (true of `geom.bounds` for any shapely
geometry). -/
def BoundsCorrect (nb : NbShape) : Prop :=
  ∀ lon lat : ℚ, nb.containsPt (lon, lat) = true → inBBox nb.bounds lon lat = true

lemma matchLoop_eq_naive (shapes : List NbShape) (lon lat : ℚ)
    (hb : ∀ nb ∈ shapes, BoundsCorrect nb) :
    matchLoop shapes lon lat = naiveLoop shapes lon lat := by
  induction shapes with
  | nil => rfl
  | cons nb rest ih =>
    have hrest : ∀ nb' ∈ rest, BoundsCorrect nb' :=
      fun nb' h => hb nb' (List.mem_cons_of_mem _ h)
    by_cases hc : nb.containsPt (lon, lat) = true
    · have hbox : inBBox nb.bounds lon lat = true := hb nb (List.mem_cons_self _ _) lon lat hc
      simp [matchLoop, naiveLoop, hbox, hc]
    · have hc' : nb.containsPt (lon, lat) = false := by
        cases h : nb.containsPt (lon, lat)
        · rfl
        · exact absurd h hc
      by_cases hbox : inBBox nb.bounds lon lat = true
      · simp [matchLoop, naiveLoop, hbox, hc', ih hrest]
      · have hbox' : inBBox nb.bounds lon lat = false := by
          cases h : inBBox nb.bounds lon lat
          · rfl
          · exact absurd h hbox
        simp [matchLoop, naiveLoop, hbox', hc', ih hrest]

lemma naiveLoop_unique (shapes : List NbShape) (lon lat : ℚ) (nb : NbShape)
    (hmem : nb ∈ shapes) (hc : nb.containsPt (lon, lat) = true)
    (huniq : ∀ nb' ∈ shapes, nb'.containsPt (lon, lat) = true → nb' = nb) :
    naiveLoop shapes lon lat = some nb.name := by
  induction shapes with
  | nil => simp at hmem
  | cons hd rest ih =>
    by_cases hhd : hd.containsPt (lon, lat) = true
    · have heq : hd = nb := huniq hd (List.mem_cons_self _ _) hhd
      subst heq
      simp [naiveLoop, hhd]
    · have hhd' : hd.containsPt (lon, lat) = false := by
        cases h : hd.containsPt (lon, lat)
        · rfl
        · exact absurd h hhd
      have hmem' : nb ∈ rest := by
        rcases List.mem_cons.1 hmem with h | h
        · subst h; exact absurd hc hhd
        · exact h
      simp only [naiveLoop, hhd', Bool.false_eq_true, if_false]
      exact ih hmem' (fun nb' h hc' => huniq nb' (List.mem_cons_of_mem _ h) hc')

/-! ## Unit-count enrichment (`get_permits` lines 199–243)

For each deduplicated permit the source uses the numeric field when
truthy, otherwise falls back to text extraction (scope of work first,
then permit description), otherwise to the zoning multi-family sentinel
or `unknown`.  The enriched unit value is a tagged union, and we count
extractor invocations explicitly to settle "extraction is never
invoked". -/

/-- Tagged unit-count value carried by an enriched record. -/
inductive UnitCount where
  | known : Nat → UnitCount
  | unknownMultiFamily : UnitCount
  | unset : UnitCount
  deriving DecidableEq, Repr

/-- Fields of a permit that the unit-count enrichment reads.  `none`
models an absent or null source value. -/
structure Permit where
  permitnumber : Option String
  numberofunits : Option Nat
  approvedscopeofwork : Option String
  permitdescription : Option String
  deriving DecidableEq, Repr

/-- Python truthiness of an optional extracted count (`if not extracted`). -/
def truthyNat (v : Option Nat) : Bool :=
  match v with
  | none => false
  | some n => n != 0

/-- ASCII lowering of an optional text with `''` default
(`permit.get('approvedscopeofwork', '').lower()`). -/
def lowerOrEmpty (t : Option String) : List Char := lowerChars (t.getD "")

/-- `'multi-family' in scope`: substring containment. -/
def mfWords : List Char := ['m','u','l','t','i','-','f','a','m','i','l','y']

/-- Substring containment (`'multi-family' in scope`). -/
def containsSeq (needle : List Char) : List Char → Bool
  | [] => needle.isEmpty
  | c :: r => needle.isPrefixOf (c :: r) || containsSeq needle r

/-- `permit_num.startswith('ZP-')`. -/
def isZP (pn : Option String) : Bool :=
  ['Z','P','-'].isPrefixOf (pn.getD "").data

/-- The extraction fallback branch (field value falsy): try the scope of
work, then the description; on failure apply the zoning multi-family
rule.  Returns the unit value, the `units_source` tag, and the number of
extractor invocations. -/
def extractionBranch (p : Permit) : UnitCount × String × Nat :=
  let e1 := extract_unit_count_from_text p.approvedscopeofwork
  let ec : Option Nat × Nat :=
    if truthyNat e1 then (e1, 1)
    else (extract_unit_count_from_text p.permitdescription, 2)
  if truthyNat ec.1 then (.known (ec.1.getD 0), "extracted", ec.2)
  else
    if isZP p.permitnumber && containsSeq mfWords (lowerOrEmpty p.approvedscopeofwork) then
      (.unknownMultiFamily, "zoning_multifamily", ec.2)
    else (.unset, "unknown", ec.2)

/-- The unit-count enrichment step of `get_permits`: authoritative field
when present and non-zero, otherwise the extraction fallback. -/
def enrichUnits (p : Permit) : UnitCount × String × Nat :=
  match p.numberofunits with
  | some u => if u ≠ 0 then (.known u, "field", 0) else extractionBranch p
  | none => extractionBranch p

/-! ## Data Freshness Monitor (`check_data_freshness` lines 88–140)

The source issues the permit query, then the appeal query, then computes
ages, all inside a single `try`; any exception yields
`(None, None, None, None)`.  Query outcomes are modelled as `Except`
values and timestamps abstractly as epoch days, so an age is `now - t`
whole days. -/

/-- `check_data_freshness`: `permitQ`/`appealQ` are the outcomes of the
two source queries (each returning the at-most-one row of its ordered,
limit-1 result); `now` is the current day.  A failure of either query
escapes to the single `except` handler. -/
def check_data_freshness (permitQ appealQ : Except String (List Int)) (now : Int) :
    Option Int × Option Int × Option Int × Option Int :=
  match permitQ with
  | .error _ => (none, none, none, none)
  | .ok permitRows =>
    match appealQ with
    | .error _ => (none, none, none, none)
    | .ok appealRows =>
      let mrp := permitRows.head?
      let mra := appealRows.head?
      (mrp, mra, mrp.map (fun d => now - d), mra.map (fun d => now - d))

/-! ## District sorting (`generate_markdown_digest` lines 515–517 and 536–538)

`sorted(keys, key=lambda x: int(x) if x.isdigit() else 999)` — a stable
sort on the numeric key, with every non-numeric key mapped to the
sentinel 999. -/

/-- `x.isdigit()` (ASCII model): non-empty and all decimal digits. -/
def isDigitKey (x : String) : Bool :=
  !x.data.isEmpty && x.data.all Char.isDigit

/-- The sort key: `int(x) if x.isdigit() else 999`. -/
def districtSortKey (x : String) : Nat :=
  if isDigitKey x then natOfDigits x.data else 999

/-- Stable insertion placing the new element after all existing elements
with a key no greater (Python's `sorted` is stable). -/
def insertDistrict (x : String) : List String → List String
  | [] => [x]
  | y :: ys =>
    if districtSortKey y ≤ districtSortKey x then y :: insertDistrict x ys
    else x :: y :: ys

/-- The district ordering produced for the digest sections. -/
def sortDistricts (l : List String) : List String :=
  l.foldl (fun acc x => insertDistrict x acc) []

lemma insertDistrict_perm (x : String) (l : List String) :
    (insertDistrict x l).Perm (x :: l) := by
  induction l with
  | nil => simp [insertDistrict]
  | cons y ys ih =>
    by_cases h : districtSortKey y ≤ districtSortKey x
    · simp only [insertDistrict, if_pos h]
      exact (ih.cons y).trans (List.Perm.swap x y ys)
    · simp only [insertDistrict, if_neg h]
      exact List.Perm.refl _

lemma sortDistricts_perm (l : List String) : (sortDistricts l).Perm l := by
  have main : ∀ (l acc : List String),
      (l.foldl (fun acc x => insertDistrict x acc) acc).Perm (acc ++ l) := by
    intro l
    induction l with
    | nil => intro acc; simp
    | cons x xs ih =>
      intro acc
      have h1 := ih (insertDistrict x acc)
      have h2 : (insertDistrict x acc ++ xs).Perm (acc ++ x :: xs) := by
        have hp : (insertDistrict x acc ++ xs).Perm ((x :: acc) ++ xs) :=
          (insertDistrict_perm x acc).append_right xs
        have hm0 : (acc ++ x :: xs).Perm (x :: (acc ++ xs)) := List.perm_middle
        have hm : ((x :: acc) ++ xs).Perm (acc ++ x :: xs) := by
          simpa using hm0.symm
        exact hp.trans hm
      exact (by simpa using h1 : (((x :: xs).foldl (fun acc x => insertDistrict x acc) acc)).Perm
        (insertDistrict x acc ++ xs)).trans h2
  simpa using main l []

lemma insertDistrict_sorted (x : String) (l : List String)
    (h : l.Pairwise (fun a b => districtSortKey a ≤ districtSortKey b)) :
    (insertDistrict x l).Pairwise (fun a b => districtSortKey a ≤ districtSortKey b) := by
  induction l with
  | nil => simp [insertDistrict]
  | cons y ys ih =>
    rw [List.pairwise_cons] at h
    by_cases hle : districtSortKey y ≤ districtSortKey x
    · simp only [insertDistrict, if_pos hle]
      rw [List.pairwise_cons]
      refine ⟨?_, ih h.2⟩
      intro b hb
      have hmem : b ∈ x :: ys := (insertDistrict_perm x ys).mem_iff.1 hb
      rcases List.mem_cons.1 hmem with hbx | hby
      · subst hbx; exact hle
      · exact h.1 b hby
    · simp only [insertDistrict, if_neg hle]
      rw [List.pairwise_cons]
      refine ⟨?_, List.pairwise_cons.2 h⟩
      intro b hb
      have hxy : districtSortKey x ≤ districtSortKey y := le_of_not_le hle
      rcases List.mem_cons.1 hb with hby | hbys
      · subst hby; exact hxy
      · exact le_trans hxy (h.1 b hbys)

lemma sortDistricts_sorted (l : List String) :
    (sortDistricts l).Pairwise (fun a b => districtSortKey a ≤ districtSortKey b) := by
  have main : ∀ (l acc : List String),
      acc.Pairwise (fun a b => districtSortKey a ≤ districtSortKey b) →
      (l.foldl (fun acc x => insertDistrict x acc) acc).Pairwise
        (fun a b => districtSortKey a ≤ districtSortKey b) := by
    intro l
    induction l with
    | nil => intro acc h; simpa using h
    | cons x xs ih =>
      intro acc h
      exact ih (insertDistrict x acc) (insertDistrict_sorted x acc h)
  exact main l [] (by simp)

/-! ## Largest-project selection (`generate_digest` lines 455–478,
`generate_markdown_digest` lines 505–507)

A combined pool is built from permits then appeals, keeping records
whose `numberofunits` is truthy and either numeric or an all-digit
string; the highlight is Python `max` with an integer key, which keeps
the first maximal element. -/

/-- The mixed-type `numberofunits` value as present at digest time:
an integer or a string (the sentinel `'Unknown (Multi-Family)'`). -/
inductive UnitsVal where
  | int : Int → UnitsVal
  | str : String → UnitsVal
  deriving DecidableEq, Repr

/-- Fields of a digest-stage record that the pool construction reads. -/
structure DigestRec where
  numberofunits : Option UnitsVal
  address : Option String
  council_district : Option String
  deriving DecidableEq, Repr

/-- A pool entry (`all_projects` element). -/
structure Project where
  units : Int
  address : String
  district : String
  ptype : String
  deriving DecidableEq, Repr

/-- The per-record pool test: value truthy, and numeric or an all-digit
string; on success the entry holds `int(units)` and the display fields. -/
def projectOf (ptype : String) (r : DigestRec) : Option Project :=
  match r.numberofunits with
  | none => none
  | some (.int n) =>
    if n ≠ 0 then some ⟨n, r.address.getD "N/A", r.council_district.getD "N/A", ptype⟩
    else none
  | some (.str s) =>
    if s ≠ "" && isDigitKey s then
      some ⟨(natOfDigits s.data : Int), r.address.getD "N/A", r.council_district.getD "N/A", ptype⟩
    else none

/-- `all_projects`: qualifying permits (in order) then qualifying
appeals (in order). -/
def allProjects (permits appeals : List DigestRec) : List Project :=
  permits.filterMap (projectOf "by-right permit") ++
    appeals.filterMap (projectOf "variance application")

/-- Python `max(pool, key=lambda x: x['units'])` on a non-empty pool:
fold keeping the current best, replacing only on a strictly greater key
(so the first maximal element wins). -/
def largestProject : List Project → Option Project
  | [] => none
  | x :: xs => some (xs.foldl (fun b y => if b.units < y.units then y else b) x)

lemma largestProject_foldl_spec (xs : List Project) :
    ∀ b : Project, ∃ pre post,
      b :: xs = pre ++ (xs.foldl (fun b y => if b.units < y.units then y else b) b) :: post ∧
      (∀ q ∈ pre, q.units < (xs.foldl (fun b y => if b.units < y.units then y else b) b).units) ∧
      (∀ q ∈ b :: xs, q.units ≤ (xs.foldl (fun b y => if b.units < y.units then y else b) b).units) := by
  induction xs with
  | nil =>
    intro b
    exact ⟨[], [], by simp, by simp, by simp⟩
  | cons y ys ih =>
    intro b
    by_cases hlt : b.units < y.units
    · obtain ⟨pre, post, heq, hpre, hall⟩ := ih y
      have hres : (y :: ys).foldl (fun b y => if b.units < y.units then y else b) b =
          ys.foldl (fun b y => if b.units < y.units then y else b) y := by
        simp [hlt]
      rw [hres]
      refine ⟨b :: pre, post, by rw [List.cons_append, ← heq], ?_, ?_⟩
      · intro q hq
        rcases List.mem_cons.1 hq with h | h
        · subst h
          exact lt_of_lt_of_le hlt (hall y (List.mem_cons_self _ _))
        · exact hpre q h
      · intro q hq
        rcases List.mem_cons.1 hq with h | h
        · subst h
          exact le_of_lt (lt_of_lt_of_le hlt (hall y (List.mem_cons_self _ _)))
        · exact hall q h
    · obtain ⟨pre, post, heq, hpre, hall⟩ := ih b
      have hres : (y :: ys).foldl (fun b y => if b.units < y.units then y else b) b =
          ys.foldl (fun b y => if b.units < y.units then y else b) b := by
        simp [hlt]
      rw [hres]
      set m := ys.foldl (fun b y => if b.units < y.units then y else b) b with hm
      have hyb : y.units ≤ b.units := le_of_not_lt hlt
      have hbm : b.units ≤ m.units := hall b (List.mem_cons_self _ _)
      cases pre with
      | nil =>
        -- m = b sits at the front; y goes into post
        have hbm' : b = m := by
          have := heq
          simp at this
          exact this.1
        refine ⟨[], y :: ys, ?_, by simp, ?_⟩
        · simp [← hbm']
        · intro q hq
          rcases List.mem_cons.1 hq with h | h
          · subst h; exact hbm
          · rcases List.mem_cons.1 h with h' | h'
            · subst h'; exact le_trans hyb hbm
            · exact hall q (List.mem_cons_of_mem _ h')
      | cons p0 pre' =>
        -- b = p0 strictly below m; insert y right after it
        have hsplit : b = p0 ∧ ys = pre' ++ m :: post := by
          have := heq
          rw [List.cons_append] at this
          exact ⟨(List.cons.inj this).1, (List.cons.inj this).2⟩
        obtain ⟨hb0, hys⟩ := hsplit
        refine ⟨b :: y :: pre', post, ?_, ?_, ?_⟩
        · rw [List.cons_append, List.cons_append, hys]
        · intro q hq
          rcases List.mem_cons.1 hq with h | h
          · subst h
            have := hpre p0 (List.mem_cons_self _ _)
            rw [← hb0] at this
            exact this
          · rcases List.mem_cons.1 h with h' | h'
            · subst h'
              have hb0m : b.units < m.units := by
                have := hpre p0 (List.mem_cons_self _ _)
                rw [← hb0] at this
                exact this
              exact lt_of_le_of_lt hyb hb0m
            · exact hpre q (List.mem_cons_of_mem _ h')
        · intro q hq
          rcases List.mem_cons.1 hq with h | h
          · subst h; exact hbm
          · rcases List.mem_cons.1 h with h' | h'
            · subst h'; exact le_trans hyb hbm
            · exact hall q (List.mem_cons_of_mem _ h')

/-! ## Auxiliary lemmas shared by the claim theorems -/

lemma filterMap_id_eq (s : List (String × RawRec))
    (h : ∀ kv ∈ s, idOf kv.2 = some kv.1) :
    (s.map Prod.snd).filterMap idOf = s.map Prod.fst := by
  induction s with
  | nil => simp
  | cons kv rest ih =>
    have hd : idOf kv.2 = some kv.1 := h kv (List.mem_cons_self _ _)
    have ht : ∀ kv' ∈ rest, idOf kv'.2 = some kv'.1 :=
      fun kv' h' => h kv' (List.mem_cons_of_mem _ h')
    simp [List.filterMap_cons, hd, ih ht]

lemma listMax_ge (c : List Nat) : ∀ x ∈ c, x ≤ listMax c := by
  induction c with
  | nil => simp
  | cons y ys ih =>
    intro x hx
    rcases List.mem_cons.1 hx with h | h
    · subst h; exact le_max_left _ _
    · exact le_trans (ih x h) (le_max_right _ _)

lemma listMax_mem (c : List Nat) (h : c ≠ []) : listMax c ∈ c := by
  induction c with
  | nil => exact absurd rfl h
  | cons y ys ih =>
    cases ys with
    | nil => simp [listMax]
    | cons z zs =>
      by_cases hle : listMax (z :: zs) ≤ y
      · have : listMax (y :: z :: zs) = y := max_eq_left hle
        rw [this]
        exact List.mem_cons_self _ _
      · have : listMax (y :: z :: zs) = listMax (z :: zs) :=
          max_eq_right (le_of_not_le hle)
        rw [this]
        exact List.mem_cons_of_mem _ (ih (by simp))

/-! ## Claim theorems -/

/-- Claim C1: for every input list, the deduplicator's output contains at
most one record per identifier, and each surviving record's timestamp
string is maximal (under string comparison) among all input records
sharing its identifier. -/
theorem dedup_unique_ids_and_max_timestamp (l : List RawRec) :
    ((dedupRecords l).filterMap idOf).Nodup ∧
    ∀ p ∈ dedupRecords l, ∀ q ∈ l, idOf q = idOf p → tsOf q ≤ tsOf p := by
  obtain ⟨hnd, hid, hpos, hcov⟩ := dedup_inv l
  constructor
  · rw [dedupRecords, filterMap_id_eq _ hid]
    exact hnd
  · intro p hp q hq hqid
    obtain ⟨kv, hkv, hkvp⟩ := List.mem_map.1 hp
    have hpid : idOf p = some kv.1 := hkvp ▸ hid kv hkv
    rw [hpid] at hqid
    obtain ⟨pre, post, heq, hpre, hpost⟩ := hpos kv hkv
    rw [heq] at hq
    rcases List.mem_append.1 hq with h' | h'
    · exact le_of_lt (hkvp ▸ hpre q h' hqid)
    · rcases List.mem_cons.1 h' with h'' | h''
      · subst h''
        rw [← hkvp]
      · exact hkvp ▸ hpost q h'' hqid

/-- Witness for C1 on a concrete two-record input where the later record
replaces the earlier one. -/
theorem dedup_unique_ids_and_max_timestamp_witness :
    tsOf (⟨some "A", some "2024-01-01", "older"⟩ : RawRec) ≤
      tsOf (⟨some "A", some "2024-01-05", "newer"⟩ : RawRec) :=
  (dedup_unique_ids_and_max_timestamp
      [⟨some "A", some "2024-01-01", "older"⟩, ⟨some "A", some "2024-01-05", "newer"⟩]).2
    ⟨some "A", some "2024-01-05", "newer"⟩ (by decide)
    ⟨some "A", some "2024-01-01", "older"⟩ (by decide) (by decide)

/-- Claim C2: the unit-count extractor is total, returns `Unset` on
absent or empty text, and otherwise the maximum of the candidates the
three heuristics collect over the lower-cased text (`Unset` when there
is none); with the three concrete contract examples. -/
theorem extract_unit_count_contract :
    extract_unit_count_from_text none = none ∧
    extract_unit_count_from_text (some "") = none ∧
    extract_unit_count_from_text (some "single family home") = some 1 ∧
    extract_unit_count_from_text (some "requesting a 12-unit multi-family dwelling") = some 12 ∧
    (∀ t : String, extract_unit_count_from_text (some t) =
      if t = "" then none
      else if (extractCandidates (lowerChars t)).isEmpty then none
      else some (listMax (extractCandidates (lowerChars t)))) ∧
    (∀ c : List Nat, c ≠ [] → listMax c ∈ c ∧ ∀ y ∈ c, y ≤ listMax c) := by
  refine ⟨rfl, rfl, by decide, by decide, fun t => ?_, fun c hc => ⟨listMax_mem c hc, listMax_ge c⟩⟩
  by_cases h : t = ""
  · simp [extract_unit_count_from_text, h]
  · simp [extract_unit_count_from_text, h]

/-- Witness for C2's maximum-resolution conjunct on a concrete candidate
list. -/
theorem extract_unit_count_contract_witness :
    listMax [12, 1] ∈ [12, 1] ∧ ∀ y ∈ [12, 1], y ≤ listMax [12, 1] :=
  extract_unit_count_contract.2.2.2.2.2 [12, 1] (by decide)

/-- Claim C3: with correct bounding boxes, the bounding-box pre-check
never changes the result: `match_neighborhood` equals the naive
first-containing-polygon scan on any present, non-zero coordinate pair,
and a point contained in exactly one polygon yields that polygon's
name. -/
theorem match_neighborhood_bbox_refinement (shapes : List NbShape)
    (hb : ∀ nb ∈ shapes, BoundsCorrect nb) (lon lat : ℚ)
    (hlon : lon ≠ 0) (hlat : lat ≠ 0) :
    match_neighborhood shapes (some lon) (some lat) =
      naive_match_neighborhood shapes (some lon) (some lat) ∧
    ∀ nb ∈ shapes, nb.containsPt (lon, lat) = true →
      (∀ nb' ∈ shapes, nb'.containsPt (lon, lat) = true → nb' = nb) →
      match_neighborhood shapes (some lon) (some lat) = some nb.name := by
  have hguard : ¬(lon = 0 ∨ lat = 0) := by
    rintro (h | h)
    · exact hlon h
    · exact hlat h
  constructor
  · simp only [match_neighborhood, naive_match_neighborhood, if_neg hguard]
    exact matchLoop_eq_naive shapes lon lat hb
  · intro nb hmem hc huniq
    simp only [match_neighborhood, if_neg hguard]
    rw [matchLoop_eq_naive shapes lon lat hb]
    exact naiveLoop_unique shapes lon lat nb hmem hc huniq

/-- A concrete unit-square neighborhood with its exact bounding box. -/
def sqShape : NbShape :=
  ⟨"Square", fun p => decide (0 < p.1 ∧ p.1 < 2 ∧ 0 < p.2 ∧ p.2 < 2), (0, 0, 2, 2)⟩

lemma sqShape_bounds : BoundsCorrect sqShape := by
  intro lon lat h
  simp only [sqShape, decide_eq_true_eq] at h
  obtain ⟨h1, h2, h3, h4⟩ := h
  simp only [inBBox, Bool.and_eq_true, decide_eq_true_eq]
  exact ⟨⟨⟨le_of_lt h1, le_of_lt h2⟩, le_of_lt h3⟩, le_of_lt h4⟩

/-- Witness for C3: the pre-checked matcher agrees with the naive scan on
the unit square and returns its name for an interior point. -/
theorem match_neighborhood_bbox_refinement_witness :
    match_neighborhood [sqShape] (some 1) (some 1) =
      naive_match_neighborhood [sqShape] (some 1) (some 1) ∧
    match_neighborhood [sqShape] (some 1) (some 1) = some "Square" := by
  have h := match_neighborhood_bbox_refinement [sqShape]
    (by
      intro nb hnb
      rw [List.mem_singleton] at hnb
      subst hnb
      exact sqShape_bounds)
    1 1 (by norm_num) (by norm_num)
  refine ⟨h.1, ?_⟩
  have h2 := h.2 sqShape (List.mem_cons_self _ _)
    (by norm_num [sqShape])
    (by intro nb' hnb' _; rwa [List.mem_singleton] at hnb')
  exact h2

/-- Claim C4: a present, non-zero source numeric unit field is
authoritative: the enrichment tags the record `field` with
`Known(int(field))` and never invokes text extraction. -/
theorem field_units_authoritative (p : Permit) (n : Nat)
    (hf : p.numberofunits = some n) (hn : n ≠ 0) :
    enrichUnits p = (.known n, "field", 0) := by
  simp [enrichUnits, hf, hn]

/-- Witness for C4 on a concrete permit with a populated field and a
scope text that extraction would otherwise parse. -/
theorem field_units_authoritative_witness :
    enrichUnits ⟨some "P-2024-001", some 8, some "construct 19 unit building", none⟩ =
      (.known 8, "field", 0) :=
  field_units_authoritative ⟨some "P-2024-001", some 8, some "construct 19 unit building", none⟩
    8 rfl (by decide)

/-- Counterexample to C5: the permit query succeeds with a row, the
appeal query fails, yet the permit fields come back absent rather than
populated — the single `try` block makes no field independent. -/
theorem check_data_freshness_counterexample :
    check_data_freshness (.ok [100]) (.error "appeal query failed") 105 =
      (none, none, none, none) ∧
    (check_data_freshness (.ok [100]) (.error "appeal query failed") 105).1 ≠ some 100 := by
  exact ⟨rfl, by decide⟩

/-- Claim C5 as amended: a failure of either source query makes all four
fields absent; only when both queries succeed is each pair of fields
computed from its own source (absent exactly when that source returned
no row). -/
theorem check_data_freshness_amended (permitQ appealQ : Except String (List Int)) (now : Int) :
    ((∃ e, permitQ = .error e) ∨ (∃ e, appealQ = .error e) →
      check_data_freshness permitQ appealQ now = (none, none, none, none)) ∧
    (∀ permitRows appealRows, permitQ = .ok permitRows → appealQ = .ok appealRows →
      check_data_freshness permitQ appealQ now =
        (permitRows.head?, appealRows.head?,
         permitRows.head?.map (fun d => now - d),
         appealRows.head?.map (fun d => now - d))) := by
  constructor
  · rintro (⟨e, he⟩ | ⟨e, he⟩)
    · simp [check_data_freshness, he]
    · cases permitQ with
      | error e' => simp [check_data_freshness]
      | ok rows => simp [check_data_freshness, he]
  · intro permitRows appealRows hp ha
    simp [check_data_freshness, hp, ha]

/-- Witness for C5's amended statement on concrete query outcomes. -/
theorem check_data_freshness_amended_witness :
    check_data_freshness (.ok [100]) (.ok [103]) 105 = (some 100, some 103, some 5, some 2) := by
  have h := (check_data_freshness_amended (.ok [100]) (.ok [103]) 105).2 [100] [103] rfl rfl
  simpa using h

/-- Counterexample to C6: a record with no identifier is dropped by the
deduplicator, not passed through. -/
theorem dedup_noid_counterexample :
    dedupRecords [(⟨none, some "2024-01-01", "orphan"⟩ : RawRec)] = [] := rfl

/-- Claim C6 as amended: records whose identifier field is missing or
empty are dropped — every record in the deduplicator's output carries a
non-empty identifier. -/
theorem dedup_drops_unidentified (l : List RawRec) (p : RawRec) (hp : p ∈ dedupRecords l) :
    ∃ k, idOf p = some k ∧ k ≠ "" := by
  obtain ⟨hnd, hid, hpos, hcov⟩ := dedup_inv l
  obtain ⟨kv, hkv, hkvp⟩ := List.mem_map.1 hp
  have hpid : idOf p = some kv.1 := hkvp ▸ hid kv hkv
  refine ⟨kv.1, hpid, ?_⟩
  revert hpid
  unfold idOf
  cases p.rid with
  | none => simp
  | some s =>
    by_cases hs : s = ""
    · simp [hs]
    · simp only [if_neg hs, Option.some.injEq]
      intro h
      rw [← h]
      exact hs

/-- Witness for C6's amended statement on a concrete input. -/
theorem dedup_drops_unidentified_witness :
    ∃ k, idOf (⟨some "B", some "2024-02-02", "kept"⟩ : RawRec) = some k ∧ k ≠ "" :=
  dedup_drops_unidentified [⟨none, none, "dropped"⟩, ⟨some "B", some "2024-02-02", "kept"⟩]
    ⟨some "B", some "2024-02-02", "kept"⟩ (by decide)

/-- Counterexample to C7: the non-numeric sentinel is given key 999, so a
numeric key of 1000 sorts after "Unknown" — non-numeric keys do not sort
after all numeric keys. -/
theorem sortDistricts_counterexample :
    sortDistricts ["1000", "Unknown"] = ["Unknown", "1000"] := by decide

/-- Claim C7 as amended: the district order is a stable sort on the key
`int(x)` for all-digit keys and the sentinel 999 otherwise; numeric keys
sort ascending, and non-numeric keys sort after every numeric key whose
value is below 999 (the sentinel's place).  The concrete example
`["3", "Unknown", "1"]` yields `["1", "3", "Unknown"]`. -/
theorem sortDistricts_amended :
    sortDistricts ["3", "Unknown", "1"] = ["1", "3", "Unknown"] ∧
    (∀ l : List String, (sortDistricts l).Perm l) ∧
    (∀ l : List String,
      (sortDistricts l).Pairwise (fun a b => districtSortKey a ≤ districtSortKey b)) ∧
    (∀ l : List String, (∀ x ∈ l, isDigitKey x = true → natOfDigits x.data < 999) →
      (sortDistricts l).Pairwise (fun a b => isDigitKey b = true → isDigitKey a = true)) := by
  refine ⟨by decide, sortDistricts_perm, sortDistricts_sorted, fun l hl => ?_⟩
  have hs := sortDistricts_sorted l
  refine hs.imp_of_mem ?_
  intro a b ha hb hle hbd
  have ha' : a ∈ l := (sortDistricts_perm l).mem_iff.1 ha
  have hb' : b ∈ l := (sortDistricts_perm l).mem_iff.1 hb
  by_cases had : isDigitKey a = true
  · exact had
  · exfalso
    have hka : districtSortKey a = 999 := by simp [districtSortKey, had]
    have hkb : districtSortKey b < 999 := by
      have := hl b hb' hbd
      simp [districtSortKey, hbd, this]
    rw [hka] at hle
    exact absurd (lt_of_le_of_lt hle hkb) (lt_irrefl _)

/-- Witness for C7's amended statement on a concrete key list. -/
theorem sortDistricts_amended_witness :
    (sortDistricts ["3", "Unknown", "1"]).Pairwise
      (fun a b => isDigitKey b = true → isDigitKey a = true) :=
  sortDistricts_amended.2.2.2 ["3", "Unknown", "1"] (by decide)

/-- Counterexample to C8: two records share an identifier and an equal
timestamp, and the deduplicator keeps the first-seen record, not the
last-seen one. -/
theorem dedup_tie_counterexample :
    dedupRecords [(⟨some "A", some "2024-01-05", "first"⟩ : RawRec),
                  (⟨some "A", some "2024-01-05", "second"⟩ : RawRec)] =
      [(⟨some "A", some "2024-01-05", "first"⟩ : RawRec)] := by decide

/-- Claim C8 as amended: on equal timestamps the deduplicator
deterministically keeps the first-seen record — the survivor for an
identifier is the earliest input record attaining the maximal timestamp
(all earlier same-identifier records are strictly older, all later ones
no newer). -/
theorem dedup_tie_first_seen_wins (l : List RawRec) (p : RawRec)
    (hp : p ∈ dedupRecords l) (k : String) (hk : idOf p = some k) :
    ∃ pre post, l = pre ++ p :: post ∧
      (∀ q ∈ pre, idOf q = some k → tsOf q < tsOf p) ∧
      (∀ q ∈ post, idOf q = some k → tsOf q ≤ tsOf p) := by
  obtain ⟨hnd, hid, hpos, hcov⟩ := dedup_inv l
  obtain ⟨kv, hkv, hkvp⟩ := List.mem_map.1 hp
  have hpid : idOf p = some kv.1 := hkvp ▸ hid kv hkv
  have hkk : k = kv.1 := by
    rw [hpid] at hk
    exact (Option.some.inj hk).symm
  subst hkk
  obtain ⟨pre, post, heq, hpre, hpost⟩ := hpos kv hkv
  exact ⟨pre, post, hkvp ▸ heq, fun q hq hqid => hkvp ▸ hpre q hq hqid,
    fun q hq hqid => hkvp ▸ hpost q hq hqid⟩

/-- Witness for C8's amended statement: the kept record on a concrete
tie, applied at the surviving first record. -/
theorem dedup_tie_first_seen_wins_witness :
    ∃ pre post,
      [(⟨some "A", some "2024-01-05", "first"⟩ : RawRec),
       (⟨some "A", some "2024-01-05", "second"⟩ : RawRec)] =
        pre ++ (⟨some "A", some "2024-01-05", "first"⟩ : RawRec) :: post ∧
      (∀ q ∈ pre, idOf q = some "A" →
        tsOf q < tsOf (⟨some "A", some "2024-01-05", "first"⟩ : RawRec)) ∧
      (∀ q ∈ post, idOf q = some "A" →
        tsOf q ≤ tsOf (⟨some "A", some "2024-01-05", "first"⟩ : RawRec)) :=
  dedup_tie_first_seen_wins
    [⟨some "A", some "2024-01-05", "first"⟩, ⟨some "A", some "2024-01-05", "second"⟩]
    ⟨some "A", some "2024-01-05", "first"⟩ (by decide) "A" (by decide)

/-- Claim C9: the "largest project" highlight: absent and sentinel unit
values are excluded from the pool, and over the combined
permits-then-appeals pool Python `max` returns the first record
attaining the greatest unit count (ties broken by pool order). -/
theorem largest_project_selection (permits appeals : List DigestRec) :
    (∀ (r : DigestRec) (t : String),
      r.numberofunits = none ∨ r.numberofunits = some (.str "Unknown (Multi-Family)") →
      projectOf t r = none) ∧
    (allProjects permits appeals ≠ [] →
      ∃ pre L post, allProjects permits appeals = pre ++ L :: post ∧
        largestProject (allProjects permits appeals) = some L ∧
        (∀ P ∈ pre, P.units < L.units) ∧
        (∀ P ∈ allProjects permits appeals, P.units ≤ L.units)) := by
  constructor
  · rintro r t (h | h)
    · simp [projectOf, h]
    · simp [projectOf, h, isDigitKey]
  · intro hne
    cases hpool : allProjects permits appeals with
    | nil => exact absurd hpool hne
    | cons x xs =>
      obtain ⟨pre, post, heq, hpre, hall⟩ := largestProject_foldl_spec xs x
      exact ⟨pre, _, post, heq, rfl, hpre, hall⟩

/-- Witness for C9 on a concrete pool: the sentinel record is excluded
and the highest-unit record wins. -/
theorem largest_project_selection_witness :
    projectOf "by-right permit"
      ⟨some (.str "Unknown (Multi-Family)"), some "10 Elm St", some "3"⟩ = none ∧
    largestProject
      (allProjects
        [⟨some (.int 5), some "1 Oak St", some "1"⟩,
         ⟨some (.str "Unknown (Multi-Family)"), some "10 Elm St", some "3"⟩]
        [⟨some (.int 12), some "2 Pine St", some "2"⟩]) =
      some ⟨12, "2 Pine St", "2", "variance application"⟩ := by
  constructor
  · exact (largest_project_selection [] []).1
      ⟨some (.str "Unknown (Multi-Family)"), some "10 Elm St", some "3"⟩
      "by-right permit" (Or.inr rfl)
  · decide

/-- Claim C10 (implicit): the deduplicator preserves first-occurrence
order — the output's identifier sequence is exactly the sequence of
first occurrences of identifiers in the input, even when later records
replace earlier ones. -/
theorem dedup_preserves_first_occurrence_order (l : List RawRec) :
    (dedupRecords l).map idOf = (firstOccs (l.filterMap idOf)).map some := by
  obtain ⟨hnd, hid, hpos, hcov⟩ := dedup_inv l
  have h1 : (dedupRecords l).map idOf =
      (l.foldl dedupStep []).map (fun kv => idOf kv.2) := by
    rw [dedupRecords, List.map_map]
    rfl
  have h2 : (l.foldl dedupStep []).map (fun kv => idOf kv.2) =
      (l.foldl dedupStep []).map (fun kv => some kv.1) := by
    apply List.map_congr_left
    intro kv hkv
    exact hid kv hkv
  have h3 : (l.foldl dedupStep []).map (fun kv => some kv.1) =
      ((l.foldl dedupStep []).map Prod.fst).map some := by
    rw [List.map_map]
    rfl
  rw [h1, h2, h3]
  have h4 := dedup_fold_map_fst l []
  simp only [List.map_nil] at h4
  rw [h4]
  rfl

end DevDigest
